import Mathlib

/-!
Verification of the neural-network routines of the notebook
`2-IDLfSP-MDT.ipynb` (deep-learning-from-scratch): model
initialization, sigmoid activation, squared-error loss, forward
propagation, backpropagation and the gradient-descent update.

NumPy 2-D arrays are embedded as a shape-carrying structure over ℝ with
a total entry function; the notebook's `model` dictionary becomes a
structure whose transient keys (`z_inputs`, `activations`,
`grad_weights`, `grad_biases`) are `Option` fields (a missing dict key
is `none`, and Python's `KeyError`/`IndexError` is modelled by the
fallible functions returning `none`).  Floating-point arithmetic is
idealized as real arithmetic.
-/

set_option autoImplicit false

namespace DLS

/-- A NumPy 2-D array: a shape `(rows, cols)` together with a total entry
function (entries outside the shape are junk and never read by the
operations below at in-range positions). -/
@[ext]
structure Mat where
  rows : Nat
  cols : Nat
  entry : Nat → Nat → ℝ

/-- Default matrix used as the junk value for out-of-range list reads. -/
def mat0 : Mat := ⟨0, 0, fun _ _ => 0⟩

/-- NumPy `A.T`. -/
def Mat.transpose (A : Mat) : Mat := ⟨A.cols, A.rows, fun i j => A.entry j i⟩

/-- NumPy matrix product `A @ B` / `np.dot(A, B)` (well-shaped when
`A.cols = B.rows`). -/
noncomputable def matMul (A B : Mat) : Mat :=
  ⟨A.rows, B.cols, fun i j => ∑ k ∈ Finset.range A.cols, A.entry i k * B.entry k j⟩

/-- NumPy elementwise product `A * B` for same-shaped arrays. -/
noncomputable def hadamard (A B : Mat) : Mat :=
  ⟨A.rows, A.cols, fun i j => A.entry i j * B.entry i j⟩

/-- NumPy `A + B` for the shapes the notebook uses: same-shaped addition,
and the broadcast of a single column `B` of shape `(m, 1)` across all
columns of an `(m, N)` array `A` (as in `W @ a + b`). -/
noncomputable def npAdd (A B : Mat) : Mat :=
  ⟨A.rows, A.cols, fun i j => A.entry i j + B.entry i (if B.cols = 1 then 0 else j)⟩

/-- NumPy elementwise `A - B` for same-shaped arrays. -/
noncomputable def matSub (A B : Mat) : Mat :=
  ⟨A.rows, A.cols, fun i j => A.entry i j - B.entry i j⟩

/-- NumPy scalar multiple `c * A`. -/
noncomputable def smul (c : ℝ) (A : Mat) : Mat :=
  ⟨A.rows, A.cols, fun i j => c * A.entry i j⟩

/-- NumPy `np.ones((r, c))`. -/
def ones (r c : Nat) : Mat := ⟨r, c, fun _ _ => 1⟩

/-- Elementwise application of a scalar function over an array (NumPy
vectorized application, as in `sigma` acting on arrays). -/
noncomputable def matMap (f : ℝ → ℝ) (A : Mat) : Mat :=
  ⟨A.rows, A.cols, fun i j => f (A.entry i j)⟩

/-- Column extraction `A[:, j:j+1]` as an `(rows, 1)` array; used to state
the per-column (per-example) decomposition of batched gradients. -/
def cola (A : Mat) (j : Nat) : Mat := ⟨A.rows, 1, fun i _ => A.entry i j⟩

/-- The notebook's `sigma(x)`: the logistic function, written with the
numerically-robust branch
`np.where(x>=0, 1/(1+np.exp(-x)), 1 - 1/(1+np.exp(x)))`. -/
noncomputable def sigma (x : ℝ) : ℝ :=
  if 0 ≤ x then 1 / (1 + Real.exp (-x)) else 1 - 1 / (1 + Real.exp x)

/-- The notebook's `sigma_prime(x) = sigma(x)*(1-sigma(x))`: derivative
of the logistic function. -/
noncomputable def sigma_prime (x : ℝ) : ℝ := sigma x * (1 - sigma x)

/-- The notebook's `loss(yhat, y) = 0.5 * np.square(yhat-y).sum()`: half
the total squared error summed over all entries (features and batch
columns). -/
noncomputable def loss (yhat y : Mat) : ℝ :=
  0.5 * ∑ i ∈ Finset.range yhat.rows, ∑ j ∈ Finset.range yhat.cols,
    (yhat.entry i j - y.entry i j) ^ 2

/-- The notebook's `loss_prime(yhat, y) = yhat - y`: gradient of the
loss w.r.t. `yhat`. -/
noncomputable def loss_prime (yhat y : Mat) : Mat := matSub yhat y

/-- The notebook's `model` dictionary.  The keys always present after
`init_model` are `nlayers`, `weights`, `biases`; the transient keys are
`Option` fields, `none` meaning the key is absent. -/
structure Model where
  nlayers : Nat
  weights : List Mat
  biases : List Mat
  z_inputs : Option (List Mat) := none
  activations : Option (List Mat) := none
  grad_weights : Option (List Mat) := none
  grad_biases : Option (List Mat) := none

/-- NumPy `np.random.randn(r, c)`: an `(r, c)` array whose entries come
from the supplied sample source `g` (randomness is modelled by passing
the drawn values in as a function). -/
def np_randn (g : Nat → Nat → ℝ) (r c : Nat) : Mat := ⟨r, c, g⟩

/-- The notebook's `initialize_model(dimensions)` (renamed here): for
`l` in `range(L)` with `L = len(dimensions) - 1`, draw
`W = randn(dimensions[l+1], dimensions[l])` and
`b = randn(dimensions[l+1], 1)` and collect them; return the dict with
keys `weights`, `biases`, `nlayers` only.  `g k` is the sample source
for the `k`-th call of `np.random.randn` (`2*l` for `W`, `2*l+1` for
`b`). -/
def init_model (g : Nat → Nat → Nat → ℝ) (dimensions : List Nat) : Model :=
  let L := dimensions.length - 1
  { nlayers := L
  , weights := (List.range L).map
      (fun l => np_randn (g (2 * l)) (dimensions.getD (l + 1) 0) (dimensions.getD l 0))
  , biases := (List.range L).map
      (fun l => np_randn (g (2 * l + 1)) (dimensions.getD (l + 1) 0) 1) }

/-- The accumulation loop of `forward`: starting from activation `a`,
walk the zipped `(W, b)` pairs computing `z = W @ a + b`, `a' = sigma(z)`;
return the final activation together with the accumulated `activations`
(starting with the input) and `z_inputs` lists. -/
noncomputable def forwardLoop : Mat → List (Mat × Mat) → Mat × List Mat × List Mat
  | a, [] => (a, [a], [])
  | a, (W, b) :: rest =>
    let z := npAdd (matMul W a) b
    let r := forwardLoop (matMap sigma z) rest
    (r.1, a :: r.2.1, z :: r.2.2)

/-- The notebook's `forward(x, model)`: run the layer loop over
`zip(model['weights'], model['biases'])` and store the accumulated
`activations` and `z_inputs` in the model; return `(a, model)`. -/
noncomputable def forward (x : Mat) (m : Model) : Mat × Model :=
  let r := forwardLoop x (m.weights.zip m.biases)
  (r.1, { m with activations := some r.2.1, z_inputs := some r.2.2 })

/-- Python's three-list `zip` (truncates to the shortest list). -/
def zip3 {α β γ : Type} (as : List α) (bs : List β) (cs : List γ) :
    List (α × β × γ) :=
  as.zip (bs.zip cs)

/-- Python's four-list `zip` (truncates to the shortest list). -/
def zip4 {α β γ δ : Type} (as : List α) (bs : List β) (cs : List γ) (ds : List δ) :
    List (α × β × γ × δ) :=
  as.zip (bs.zip (cs.zip ds))

/-- The accumulation loop of `backward`: for each `(W, z, a)` of the
reversed layer data, update `delta = W.T @ delta * sigma_prime(z)` and
append `grad_W = delta @ a.T` and `grad_b = delta @ ones(Nbatch, 1)` to
the accumulated gradient lists (Python `list.append`). -/
noncomputable def backwardLoop (N : Nat) :
    Mat → List (Mat × Mat × Mat) → List Mat → List Mat → List Mat × List Mat
  | _, [], gws, gbs => (gws, gbs)
  | delta, (W, z, a) :: rest, gws, gbs =>
    let d := hadamard (matMul W.transpose delta) (matMap sigma_prime z)
    backwardLoop N d rest (gws ++ [matMul d a.transpose]) (gbs ++ [matMul d (ones N 1)])

/-- The notebook's `backward(y, model)`.  Reads `model['z_inputs']` and
`model['activations']` (a missing key, Python `KeyError`, and an
out-of-range `[-1]`/`[-2]` index, Python `IndexError`, give `none`),
computes the output-layer `delta` and gradients, loops over
`zip(weights[-1:0:-1], z_inputs[-2::-1], activations[-3::-1])`, and
stores the reversal of the accumulated gradient lists under
`grad_weights`/`grad_biases`. -/
noncomputable def backward (y : Mat) (m : Model) : Option Model := do
  let Nbatch := y.cols
  let zs ← m.z_inputs
  let acts ← m.activations
  let yhat ← acts.getLast?
  let z ← zs.getLast?
  let a ← acts.dropLast.getLast?
  let delta := hadamard (loss_prime yhat y) (matMap sigma_prime z)
  let grads := backwardLoop Nbatch delta
      (zip3 m.weights.reverse.dropLast zs.dropLast.reverse acts.dropLast.dropLast.reverse)
      [matMul delta a.transpose] [matMul delta (ones Nbatch 1)]
  some { m with grad_weights := some grads.1.reverse, grad_biases := some grads.2.reverse }

/-- The notebook's `update(eta, model)`: reads the gradient keys (missing
key = `KeyError` = `none`; the closing `del` loop also reads `z_inputs`
and `activations`), builds `W - eta*dW` and `b - eta*db` over
`zip(weights, biases, grad_weights, grad_biases)`, and returns the model
with only `nlayers`, `weights`, `biases` remaining (all four transient
keys deleted). -/
noncomputable def update (eta : ℝ) (m : Model) : Option Model := do
  let gws ← m.grad_weights
  let gbs ← m.grad_biases
  let _zs ← m.z_inputs
  let _acts ← m.activations
  let upd := (zip4 m.weights m.biases gws gbs).map
      (fun q => (matSub q.1 (smul eta q.2.2.1), matSub q.2.1 (smul eta q.2.2.2)))
  some { nlayers := m.nlayers, weights := upd.map Prod.fst, biases := upd.map Prod.snd }

/-- Written from the spec's backpropagation recurrence, for comparison
with `backward`: with `L = ws.length` layers, `spec_delta y ws zs acts j`
is the error `delta[L-j]` of (1-based) layer `L-j`:
`delta[L] = lossPrime(a[L], y) ⊙ sigmaPrime(z[L])` and
`delta[l] = (weights[l+1]ᵗ · delta[l+1]) ⊙ sigmaPrime(z[l])`.
Lists are 0-based: `acts.getD l` is `a[l]`, `zs.getD (l-1)` is `z[l]`,
`ws.getD (l-1)` is `weights[l]`. -/
noncomputable def spec_delta (y : Mat) (ws zs acts : List Mat) : Nat → Mat
  | 0 => hadamard (loss_prime (acts.getD (acts.length - 1) mat0) y)
      (matMap sigma_prime (zs.getD (zs.length - 1) mat0))
  | j + 1 => hadamard
      (matMul (ws.getD (ws.length - 1 - j) mat0).transpose (spec_delta y ws zs acts j))
      (matMap sigma_prime (zs.getD (zs.length - 2 - j) mat0))

/-- One gradient evaluation as the training loop performs it:
`forward(x, model)` followed by `backward(y, model)`, extracting the
stored `(grad_weights, grad_biases)` (empty lists if backward fails). -/
noncomputable def stepGrads (x y : Mat) (m : Model) : List Mat × List Mat :=
  match backward y (forward x m).2 with
  | some m2 => (m2.grad_weights.getD [], m2.grad_biases.getD [])
  | none => ([], [])

/-- Specification-side list of gradient pairs produced by the backward
loop: entry `k` is `(grad_W, grad_b)` computed at the `k`-th iteration. -/
noncomputable def gradPairs (N : Nat) : Mat → List (Mat × Mat × Mat) → List (Mat × Mat)
  | _, [] => []
  | delta, (W, z, a) :: rest =>
    let d := hadamard (matMul W.transpose delta) (matMap sigma_prime z)
    (matMul d a.transpose, matMul d (ones N 1)) :: gradPairs N d rest

/-! ### List index helpers -/

theorem getD_map_range {α : Type} (f : Nat → α) (d : α) {L l : Nat} (h : l < L) :
    ((List.range L).map f).getD l d = f l := by
  rw [List.getD_eq_getElem _ d (by simpa using h)]
  simp

theorem map_getD {α β : Type} (f : α → β) (l : List α) (n : Nat) (d : α) (d2 : β)
    (h : n < l.length) :
    (l.map f).getD n d2 = f (l.getD n d) := by
  rw [List.getD_eq_getElem _ d2 (by simpa using h), List.getD_eq_getElem _ d h]
  simp

theorem zip_getD {α β : Type} (as : List α) (bs : List β) (l : Nat) (da : α) (db : β)
    (h1 : l < as.length) (h2 : l < bs.length) :
    (as.zip bs).getD l (da, db) = (as.getD l da, bs.getD l db) := by
  rw [List.getD_eq_getElem _ _ (by simp; omega), List.getD_eq_getElem _ da h1,
    List.getD_eq_getElem _ db h2]
  exact List.getElem_zip ..

theorem zip4_getD {α β γ δ : Type} (as : List α) (bs : List β) (cs : List γ) (ds : List δ)
    (l : Nat) (da : α) (db : β) (dc : γ) (dd : δ)
    (h1 : l < as.length) (h2 : l < bs.length) (h3 : l < cs.length) (h4 : l < ds.length) :
    (zip4 as bs cs ds).getD l (da, db, dc, dd) =
      (as.getD l da, bs.getD l db, cs.getD l dc, ds.getD l dd) := by
  unfold zip4
  rw [zip_getD _ _ _ _ _ h1 (by simp; omega), zip_getD _ _ _ _ _ h2 (by simp; omega),
    zip_getD _ _ _ _ _ h3 h4]

theorem getLast?_getD {α : Type} (l : List α) (d : α) (h : l ≠ []) :
    l.getLast? = some (l.getD (l.length - 1) d) := by
  rw [List.getLast?_eq_getLast l h]
  congr 1
  rw [List.getD_eq_getElem _ d (by cases l with | nil => exact absurd rfl h | cons a t => simp)]
  exact List.getLast_eq_getElem l h

theorem dropLast_getD {α : Type} (l : List α) (n : Nat) (d : α) (h : n < l.length - 1) :
    l.dropLast.getD n d = l.getD n d := by
  rw [List.getD_eq_getElem _ d (by simp; omega), List.getD_eq_getElem _ d (by omega)]
  exact List.getElem_dropLast ..

theorem reverse_getD {α : Type} (l : List α) (n : Nat) (d : α) (h : n < l.length) :
    l.reverse.getD n d = l.getD (l.length - 1 - n) d := by
  rw [List.getD_eq_getElem _ d (by simpa using h), List.getD_eq_getElem _ d (by omega)]
  exact List.getElem_reverse ..

theorem reverse_dropLast_getD {α : Type} (l : List α) (n : Nat) (d : α)
    (h : n < l.length - 1) :
    l.reverse.dropLast.getD n d = l.getD (l.length - 1 - n) d := by
  rw [dropLast_getD _ _ _ (by simpa using h), reverse_getD _ _ _ (by omega)]

theorem dropLast_reverse_getD {α : Type} (l : List α) (n : Nat) (d : α)
    (h : n < l.length - 1) :
    l.dropLast.reverse.getD n d = l.getD (l.length - 2 - n) d := by
  rw [reverse_getD _ _ _ (by simp; omega), dropLast_getD _ _ _ (by simp; omega)]
  congr 1
  simp
  omega

theorem dropLast2_reverse_getD {α : Type} (l : List α) (n : Nat) (d : α)
    (h : n < l.length - 2) :
    l.dropLast.dropLast.reverse.getD n d = l.getD (l.length - 3 - n) d := by
  rw [reverse_getD _ _ _ (by simp; omega), dropLast_getD _ _ _ (by simp; omega),
    dropLast_getD _ _ _ (by simp; omega)]
  congr 1
  simp
  omega

/-! ### Column-extraction commutation lemmas

`cola` commutes with every array operation the network uses; this is
what makes batched forward/backward act columnwise. -/

theorem cola_matMul (A B : Mat) (j : Nat) : matMul A (cola B j) = cola (matMul A B) j :=
  rfl

theorem cola_npAdd (A B : Mat) (j : Nat) (hb : B.cols = 1) :
    npAdd (cola A j) B = cola (npAdd A B) j := by
  refine Mat.ext rfl rfl ?_
  funext i k
  simp [npAdd, cola, hb]

theorem cola_matMap (f : ℝ → ℝ) (A : Mat) (j : Nat) :
    matMap f (cola A j) = cola (matMap f A) j :=
  rfl

theorem cola_hadamard (A B : Mat) (j : Nat) :
    hadamard (cola A j) (cola B j) = cola (hadamard A B) j :=
  rfl

theorem cola_matSub (A B : Mat) (j : Nat) :
    matSub (cola A j) (cola B j) = cola (matSub A B) j :=
  rfl

/-! ### The logistic function -/

theorem one_sub_inv_exp (x : ℝ) : 1 - 1 / (1 + Real.exp x) = 1 / (1 + Real.exp (-x)) := by
  have h1 : (0:ℝ) < 1 + Real.exp x := by positivity
  have h3 : Real.exp x ≠ 0 := (Real.exp_pos x).ne'
  rw [Real.exp_neg]
  field_simp
  ring

theorem sigma_logistic (x : ℝ) : sigma x = 1 / (1 + Real.exp (-x)) := by
  unfold sigma
  split
  · rfl
  · exact one_sub_inv_exp x

/-- C6: the two-branch stabilized sigma equals the logistic function
`1/(1+exp(-x))` for every real `x`; consequently `sigma 0 = 1/2`,
`sigma (-x) = 1 - sigma x`, `sigma x` lies strictly in `(0,1)`, and
`sigma_prime x = sigma x * (1 - sigma x)`. -/
theorem sigma_correct (x : ℝ) :
    sigma x = 1 / (1 + Real.exp (-x)) ∧
    sigma 0 = 1 / 2 ∧
    sigma (-x) = 1 - sigma x ∧
    0 < sigma x ∧ sigma x < 1 ∧
    sigma_prime x = sigma x * (1 - sigma x) := by
  have h2 : (0:ℝ) < 1 + Real.exp (-x) := by positivity
  refine ⟨sigma_logistic x, ?_, ?_, ?_, ?_, rfl⟩
  · rw [sigma_logistic]
    norm_num [Real.exp_zero]
  · rw [sigma_logistic, sigma_logistic, neg_neg, ← one_sub_inv_exp x]
    ring
  · rw [sigma_logistic]
    positivity
  · rw [sigma_logistic, div_lt_one h2]
    linarith [Real.exp_pos (-x)]

/-! ### Initialization -/

/-- C3: for dimensions of at least 2 positive entries, `init_model`
produces `nlayers = len(dimensions) - 1`, exactly `L` weight matrices of
shape `(dimensions[l], dimensions[l-1])` and `L` bias columns of shape
`(dimensions[l], 1)` (0-based list index `l-1`), and sets none of the
transient fields. -/
theorem init_model_shapes (g : Nat → Nat → Nat → ℝ) (dims : List Nat)
    (hlen : 2 ≤ dims.length) (hpos : ∀ d ∈ dims, 0 < d) :
    (init_model g dims).nlayers = dims.length - 1 ∧
    (init_model g dims).weights.length = dims.length - 1 ∧
    (init_model g dims).biases.length = dims.length - 1 ∧
    (∀ l, l < dims.length - 1 →
      ((init_model g dims).weights.getD l mat0).rows = dims.getD (l + 1) 0 ∧
      ((init_model g dims).weights.getD l mat0).cols = dims.getD l 0 ∧
      ((init_model g dims).biases.getD l mat0).rows = dims.getD (l + 1) 0 ∧
      ((init_model g dims).biases.getD l mat0).cols = 1) ∧
    (init_model g dims).z_inputs = none ∧
    (init_model g dims).activations = none ∧
    (init_model g dims).grad_weights = none ∧
    (init_model g dims).grad_biases = none := by
  refine ⟨rfl, by simp [init_model], by simp [init_model], ?_, rfl, rfl, rfl, rfl⟩
  intro l hl
  have hw : (init_model g dims).weights.getD l mat0 =
      np_randn (g (2 * l)) (dims.getD (l + 1) 0) (dims.getD l 0) := by
    simp only [init_model]
    exact getD_map_range _ mat0 hl
  have hb : (init_model g dims).biases.getD l mat0 =
      np_randn (g (2 * l + 1)) (dims.getD (l + 1) 0) 1 := by
    simp only [init_model]
    exact getD_map_range _ mat0 hl
  rw [hw, hb]
  exact ⟨rfl, rfl, rfl, rfl⟩

theorem init_model_shapes_witness :
    2 ≤ ([2, 3] : List Nat).length ∧
    ((init_model (fun _ _ _ => 0) [2, 3]).weights.getD 0 mat0).rows =
      ([2, 3] : List Nat).getD 1 0 :=
  ⟨by decide,
    ((init_model_shapes (fun _ _ _ => 0) [2, 3] (by decide)
      (by decide)).2.2.2.1 0 (by decide)).1⟩

/-- C8 counterexample: `init_model` performs no validation.  On the
one-element list `[5]` it returns (rather than fails) a model with zero
layers and empty weight/bias lists, and on `[2, 0]` (a non-positive
entry) it returns a model whose single weight matrix has 0 rows.  In
this embedding `init_model` is a total function: there is no failure
channel at all, matching the notebook, where only a negative dimension
(not representable as `Nat`) would make `np.random.randn` raise. -/
theorem init_model_no_validation :
    init_model (fun _ _ _ => 0) [5] = { nlayers := 0, weights := [], biases := [] } ∧
    (init_model (fun _ _ _ => 0) [2, 0]).nlayers = 1 ∧
    ((init_model (fun _ _ _ => 0) [2, 0]).weights.getD 0 mat0).rows = 0 :=
  ⟨rfl, rfl, rfl⟩

/-- C8 (amended): `init_model` does not fail on short or non-positive
dimension lists; for every dimensions list it returns a model with
`nlayers = len(dimensions) - 1` (Nat-clamped), that many weight and bias
matrices, and no transient fields. -/
theorem init_model_total (g : Nat → Nat → Nat → ℝ) (dims : List Nat) :
    (init_model g dims).nlayers = dims.length - 1 ∧
    (init_model g dims).weights.length = dims.length - 1 ∧
    (init_model g dims).biases.length = dims.length - 1 ∧
    (init_model g dims).z_inputs = none ∧
    (init_model g dims).activations = none ∧
    (init_model g dims).grad_weights = none ∧
    (init_model g dims).grad_biases = none :=
  ⟨rfl, by simp [init_model], by simp [init_model], rfl, rfl, rfl, rfl⟩

/-- C10: for a one-element dimensions list, `init_model` returns a model
with `nlayers = 0` and empty weights/biases, and `forward` on that model
returns the input unchanged, with `activations = [x]` and
`z_inputs = []`. -/
theorem zero_layer_model (g : Nat → Nat → Nat → ℝ) (d : Nat) (x : Mat) :
    (init_model g [d]).nlayers = 0 ∧
    (init_model g [d]).weights = [] ∧
    (init_model g [d]).biases = [] ∧
    (forward x (init_model g [d])).1 = x ∧
    (forward x (init_model g [d])).2.activations = some [x] ∧
    (forward x (init_model g [d])).2.z_inputs = some [] :=
  ⟨rfl, rfl, rfl, rfl, rfl, rfl⟩

/-! ### Missing-trace failures -/

/-- C9: `backward` on a model missing the forward trace (no `z_inputs`
or no `activations` key) fails (`none`, modelling Python's `KeyError`),
and `update` on a model missing the gradient keys fails; in each case no
updated model is produced at all (the embedding is functional, so the
caller's `weights`/`biases` are untouched, as in Python where the
`KeyError` is raised before any assignment to the dict). -/
theorem missing_trace_fails (y : Mat) (eta : ℝ) (m m2 : Model) :
    (m.z_inputs = none ∨ m.activations = none → backward y m = none) ∧
    (m2.grad_weights = none ∨ m2.grad_biases = none → update eta m2 = none) := by
  constructor
  · rintro (h | h)
    · simp [backward, h]
    · cases hz : m.z_inputs <;> simp [backward, h, hz]
  · rintro (h | h)
    · simp [update, h]
    · cases hg : m2.grad_weights <;> simp [update, h, hg]

theorem missing_trace_fails_witness :
    ({ nlayers := 0, weights := [], biases := [] } : Model).z_inputs = none ∧
    backward (ones 1 1) { nlayers := 0, weights := [], biases := [] } = none ∧
    update 1 { nlayers := 0, weights := [], biases := [] } = none :=
  ⟨rfl,
    (missing_trace_fails (ones 1 1) 1 { nlayers := 0, weights := [], biases := [] }
      { nlayers := 0, weights := [], biases := [] }).1 (Or.inl rfl),
    (missing_trace_fails (ones 1 1) 1 { nlayers := 0, weights := [], biases := [] }
      { nlayers := 0, weights := [], biases := [] }).2 (Or.inl rfl)⟩

/-! ### Forward propagation -/

theorem forwardLoop_acts_length (wb : List (Mat × Mat)) :
    ∀ a : Mat, (forwardLoop a wb).2.1.length = wb.length + 1 := by
  induction wb with
  | nil => intro a; rfl
  | cons p rest ih =>
    intro a
    obtain ⟨W, b⟩ := p
    simp only [forwardLoop, List.length_cons, ih]

theorem forwardLoop_zs_length (wb : List (Mat × Mat)) :
    ∀ a : Mat, (forwardLoop a wb).2.2.length = wb.length := by
  induction wb with
  | nil => intro a; rfl
  | cons p rest ih =>
    intro a
    obtain ⟨W, b⟩ := p
    simp only [forwardLoop, List.length_cons, ih]

theorem forwardLoop_acts_zero (wb : List (Mat × Mat)) (a : Mat) :
    (forwardLoop a wb).2.1.getD 0 mat0 = a := by
  cases wb with
  | nil => rfl
  | cons p rest => obtain ⟨W, b⟩ := p; rfl

theorem forwardLoop_last (wb : List (Mat × Mat)) :
    ∀ a : Mat, (forwardLoop a wb).1 = (forwardLoop a wb).2.1.getD wb.length mat0 := by
  induction wb with
  | nil => intro a; rfl
  | cons p rest ih =>
    intro a
    obtain ⟨W, b⟩ := p
    simp only [forwardLoop, List.length_cons, List.getD_cons_succ]
    exact ih _

theorem forwardLoop_step (wb : List (Mat × Mat)) :
    ∀ (a : Mat) (l : Nat), l < wb.length →
    (forwardLoop a wb).2.2.getD l mat0 =
      npAdd (matMul (wb.getD l (mat0, mat0)).1 ((forwardLoop a wb).2.1.getD l mat0))
        (wb.getD l (mat0, mat0)).2 ∧
    (forwardLoop a wb).2.1.getD (l + 1) mat0 =
      matMap sigma ((forwardLoop a wb).2.2.getD l mat0) := by
  induction wb with
  | nil => intro a l hl; simp at hl
  | cons p rest ih =>
    intro a l hl
    obtain ⟨W, b⟩ := p
    cases l with
    | zero =>
      constructor
      · rfl
      · simp only [forwardLoop, List.getD_cons_succ, List.getD_cons_zero]
        exact forwardLoop_acts_zero rest _
    | succ n =>
      have h2 : n < rest.length := by simpa using hl
      have := ih (matMap sigma (npAdd (matMul W a) b)) n h2
      simpa only [forwardLoop, List.getD_cons_succ] using this

theorem forwardLoop_acts_cols (wb : List (Mat × Mat)) :
    ∀ (a : Mat) (l : Nat), l ≤ wb.length →
    ((forwardLoop a wb).2.1.getD l mat0).cols = a.cols := by
  induction wb with
  | nil =>
    intro a l hl
    have h0 : l = 0 := Nat.le_zero.mp hl
    subst h0
    rfl
  | cons p rest ih =>
    intro a l hl
    obtain ⟨W, b⟩ := p
    cases l with
    | zero => rfl
    | succ n =>
      have h2 : n ≤ rest.length := by simpa using hl
      have := ih (matMap sigma (npAdd (matMul W a) b)) n h2
      simpa only [forwardLoop, List.getD_cons_succ] using this

/-- C2: `forward` computes `z[l] = W[l] a[l-1] + b[l]` (bias broadcast
across the batch columns) and `a[l] = sigma(z[l])` with `a[0] = x`,
returns the final activation `a[L]` of shape `(dimensions[L], N)`, and
stores `activations` of length `L+1` (entry 0 the input) and `z_inputs`
of length `L`.  Lists are 0-based: `acts.getD l` is `a[l]` and
`zs.getD (l-1)` is `z[l]`. -/
theorem forward_spec (dims : List Nat) (m : Model) (x : Mat) (L : Nat)
    (hL : dims.length = L + 1)
    (hwl : m.weights.length = L) (hbl : m.biases.length = L)
    (hw : ∀ l, l < L → (m.weights.getD l mat0).rows = dims.getD (l + 1) 0)
    (hb1 : ∀ b ∈ m.biases, b.cols = 1)
    (hx : x.rows = dims.getD 0 0) :
    ∃ acts zs,
      (forward x m).2.activations = some acts ∧
      (forward x m).2.z_inputs = some zs ∧
      acts.length = L + 1 ∧ zs.length = L ∧
      acts.getD 0 mat0 = x ∧
      (∀ l, l < L →
        zs.getD l mat0 =
          npAdd (matMul (m.weights.getD l mat0) (acts.getD l mat0))
            (m.biases.getD l mat0) ∧
        (∀ i j, (zs.getD l mat0).entry i j =
          (matMul (m.weights.getD l mat0) (acts.getD l mat0)).entry i j +
            (m.biases.getD l mat0).entry i 0) ∧
        acts.getD (l + 1) mat0 = matMap sigma (zs.getD l mat0)) ∧
      (forward x m).1 = acts.getD L mat0 ∧
      (forward x m).1.rows = dims.getD L 0 ∧
      (forward x m).1.cols = x.cols := by
  have hzipl : (m.weights.zip m.biases).length = L := by
    simp [List.length_zip, hwl, hbl]
  have hzip : ∀ l, l < L → (m.weights.zip m.biases).getD l (mat0, mat0) =
      (m.weights.getD l mat0, m.biases.getD l mat0) := by
    intro l hl
    exact zip_getD _ _ _ _ _ (hwl ▸ hl) (hbl ▸ hl)
  refine ⟨(forwardLoop x (m.weights.zip m.biases)).2.1,
    (forwardLoop x (m.weights.zip m.biases)).2.2, rfl, rfl, ?_, ?_, ?_, ?_, ?_, ?_, ?_⟩
  · rw [forwardLoop_acts_length, hzipl]
  · rw [forwardLoop_zs_length, hzipl]
  · exact forwardLoop_acts_zero _ _
  · intro l hl
    have hstep := forwardLoop_step (m.weights.zip m.biases) x l (hzipl ▸ hl)
    rw [hzip l hl] at hstep
    refine ⟨hstep.1, ?_, hstep.2⟩
    intro i j
    have hbc : (m.biases.getD l mat0).cols = 1 := by
      apply hb1
      rw [List.getD_eq_getElem _ mat0 (hbl ▸ hl)]
      exact List.getElem_mem ..
    rw [hstep.1]
    simp only [npAdd]
    rw [if_pos hbc]
  · rw [forward, forwardLoop_last, hzipl]
  · have hlast : (forward x m).1 = (forwardLoop x (m.weights.zip m.biases)).2.1.getD L mat0 := by
      rw [forward, forwardLoop_last, hzipl]
    cases L with
    | zero =>
      rw [hlast, forwardLoop_acts_zero _ _]
      exact hx
    | succ n =>
      have hstep := forwardLoop_step (m.weights.zip m.biases) x n (by omega)
      rw [hzip n (by omega)] at hstep
      rw [hlast, hstep.2, hstep.1]
      exact hw n (by omega)
  · have hlast : (forward x m).1 = (forwardLoop x (m.weights.zip m.biases)).2.1.getD L mat0 := by
      rw [forward, forwardLoop_last, hzipl]
    rw [hlast]
    exact forwardLoop_acts_cols _ _ _ (by omega)

theorem forward_spec_witness :
    ([1, 1] : List Nat).length = 1 + 1 ∧
    (forward (ones 1 1)
      { nlayers := 1, weights := [ones 1 1], biases := [ones 1 1] }).1.cols = 1 := by
  refine ⟨rfl, ?_⟩
  obtain ⟨acts, zs, h⟩ := forward_spec [1, 1]
    { nlayers := 1, weights := [ones 1 1], biases := [ones 1 1] } (ones 1 1) 1 rfl rfl rfl
    (by intro l hl; have h0 : l = 0 := Nat.lt_one_iff.mp hl; subst h0; rfl)
    (by intro b hb; simp only [List.mem_singleton] at hb; subst hb; rfl) rfl
  exact h.2.2.2.2.2.2.2.2

/-! ### Backward propagation -/

theorem backwardLoop_eq (N : Nat) (items : List (Mat × Mat × Mat)) :
    ∀ (delta : Mat) (gws gbs : List Mat),
    backwardLoop N delta items gws gbs =
      (gws ++ (gradPairs N delta items).map Prod.fst,
       gbs ++ (gradPairs N delta items).map Prod.snd) := by
  induction items with
  | nil => intro delta gws gbs; simp [backwardLoop, gradPairs]
  | cons p rest ih =>
    intro delta gws gbs
    obtain ⟨W, z, a⟩ := p
    simp only [backwardLoop, gradPairs, List.map_cons]
    rw [ih]
    simp

theorem gradPairs_length (N : Nat) (items : List (Mat × Mat × Mat)) :
    ∀ delta : Mat, (gradPairs N delta items).length = items.length := by
  induction items with
  | nil => intro delta; rfl
  | cons p rest ih =>
    intro delta
    obtain ⟨W, z, a⟩ := p
    simp only [gradPairs, List.length_cons, ih]

theorem gradPairs_getD (N : Nat) (D : Nat → Mat) (wsel zsel asel : Nat → Mat)
    (hD : ∀ i, D (i + 1) =
      hadamard (matMul (wsel i).transpose (D i)) (matMap sigma_prime (zsel i))) :
    ∀ (items : List (Mat × Mat × Mat)) (k0 : Nat),
    (∀ j, j < items.length →
      items.getD j (mat0, mat0, mat0) = (wsel (k0 + j), zsel (k0 + j), asel (k0 + j))) →
    ∀ k, k < items.length →
    (gradPairs N (D k0) items).getD k (mat0, mat0) =
      (matMul (D (k0 + k + 1)) (asel (k0 + k)).transpose,
       matMul (D (k0 + k + 1)) (ones N 1)) := by
  intro items
  induction items with
  | nil => intro k0 hitems k hk; simp at hk
  | cons p rest ih =>
    intro k0 hitems k hk
    obtain ⟨W, z, a⟩ := p
    have h0 := hitems 0 (by simp)
    simp only [List.getD_cons_zero, Nat.add_zero, Prod.mk.injEq] at h0
    obtain ⟨hW, hz, ha⟩ := h0
    have hd : hadamard (matMul W.transpose (D k0)) (matMap sigma_prime z) = D (k0 + 1) := by
      rw [hW, hz]
      exact (hD k0).symm
    cases k with
    | zero =>
      simp only [gradPairs, List.getD_cons_zero, Nat.add_zero]
      rw [hd, ha]
    | succ n =>
      have hn : n < rest.length := by simpa using hk
      have hrest : ∀ j, j < rest.length →
          rest.getD j (mat0, mat0, mat0) =
            (wsel (k0 + 1 + j), zsel (k0 + 1 + j), asel (k0 + 1 + j)) := by
        intro j hj
        have := hitems (j + 1) (by simpa using Nat.succ_lt_succ hj)
        simp only [List.getD_cons_succ] at this
        rw [this]
        have harith : k0 + (j + 1) = k0 + 1 + j := by omega
        rw [harith]
      have := ih (k0 + 1) hrest n hn
      simp only [gradPairs, List.getD_cons_succ, hd]
      rw [this]
      have harith : k0 + 1 + n = k0 + (n + 1) := by omega
      rw [harith]

/-- The output of `backward` on any model holding a trace of `L ≥ 1`
layers: it succeeds and stores, in layer-ascending order, gradients
`grad_weights[l] = delta[l+1] · a[l]ᵗ` and
`grad_biases[l] = delta[l+1] · ones(N,1)` where `delta` is the spec
recurrence `spec_delta` (0-based list index `l`). -/
theorem backward_out (m : Model) (y : Mat) (zs acts : List Mat) (L : Nat)
    (hz : m.z_inputs = some zs) (ha : m.activations = some acts)
    (hwl : m.weights.length = L) (hzl : zs.length = L) (hal : acts.length = L + 1)
    (hL : 1 ≤ L) :
    ∃ gws gbs,
      backward y m = some { m with grad_weights := some gws, grad_biases := some gbs } ∧
      gws.length = L ∧ gbs.length = L ∧
      (∀ l, l < L →
        gws.getD l mat0 =
          matMul (spec_delta y m.weights zs acts (L - 1 - l)) ((acts.getD l mat0).transpose) ∧
        gbs.getD l mat0 =
          matMul (spec_delta y m.weights zs acts (L - 1 - l)) (ones y.cols 1)) := by
  have hzne : zs ≠ [] := by intro hcon; rw [hcon] at hzl; simp at hzl; omega
  have hane : acts ≠ [] := by intro hcon; rw [hcon] at hal; simp at hal
  have hadne : acts.dropLast ≠ [] := by
    intro hcon
    have := congrArg List.length hcon
    simp [hal] at this
    omega
  have hylast : acts.getLast? = some (acts.getD (L + 1 - 1) mat0) := by
    rw [getLast?_getD acts mat0 hane, hal]
  have hzlast : zs.getLast? = some (zs.getD (L - 1) mat0) := by
    rw [getLast?_getD zs mat0 hzne, hzl]
  have halast : acts.dropLast.getLast? = some (acts.getD (L - 1) mat0) := by
    rw [getLast?_getD acts.dropLast mat0 hadne]
    congr 1
    have hlen : acts.dropLast.length = L := by simp [hal]
    rw [hlen, dropLast_getD acts (L - 1) mat0 (by omega)]
  -- the output-layer error is the top of the spec recurrence
  have hdelta0 : hadamard (loss_prime (acts.getD (L + 1 - 1) mat0) y)
      (matMap sigma_prime (zs.getD (L - 1) mat0)) = spec_delta y m.weights zs acts 0 := by
    simp only [spec_delta, hal, hzl]
  set delta0 := hadamard (loss_prime (acts.getD (L + 1 - 1) mat0) y)
      (matMap sigma_prime (zs.getD (L - 1) mat0)) with hdelta0def
  set items := zip3 m.weights.reverse.dropLast zs.dropLast.reverse
      acts.dropLast.dropLast.reverse with hitemsdef
  have hitemslen : items.length = L - 1 := by
    simp [hitemsdef, zip3, List.length_zip, hal, hzl, hwl]
  have hitems : ∀ j, j < items.length →
      items.getD j (mat0, mat0, mat0) =
        (m.weights.getD (m.weights.length - 1 - j) mat0,
         zs.getD (zs.length - 2 - j) mat0,
         acts.getD (acts.length - 3 - j) mat0) := by
    intro j hj
    rw [hitemslen] at hj
    have hwj : j < m.weights.reverse.dropLast.length := by simp [hwl]; omega
    have hzj : j < (zs.dropLast.reverse.zip acts.dropLast.dropLast.reverse).length := by
      simp [List.length_zip, hal, hzl]
      omega
    rw [hitemsdef, zip3, zip_getD _ _ _ _ (mat0, mat0) hwj hzj,
      zip_getD _ _ _ _ mat0 (by simp [hzl]; omega) (by simp [hal]; omega)]
    rw [reverse_dropLast_getD _ _ _ (by rw [hwl]; omega),
      dropLast_reverse_getD _ _ _ (by rw [hzl]; omega),
      dropLast2_reverse_getD _ _ _ (by rw [hal]; omega)]
  have hrun : backward y m = some
      { m with
        grad_weights := some (([matMul delta0 ((acts.getD (L - 1) mat0).transpose)] ++
          (gradPairs y.cols delta0 items).map Prod.fst).reverse)
        grad_biases := some (([matMul delta0 (ones y.cols 1)] ++
          (gradPairs y.cols delta0 items).map Prod.snd).reverse) } := by
    simp only [backward, hz, ha, Option.bind_eq_bind, Option.some_bind]
    rw [hylast, hzlast, halast]
    simp only [Option.some_bind]
    rw [← hitemsdef, ← hdelta0def, backwardLoop_eq]
  refine ⟨_, _, hrun, ?_, ?_, ?_⟩
  · simp [gradPairs_length, hitemslen]
    omega
  · simp [gradPairs_length, hitemslen]
    omega
  · intro l hl
    have hglen : ([matMul delta0 ((acts.getD (L - 1) mat0).transpose)] ++
        (gradPairs y.cols delta0 items).map Prod.fst).length = L := by
      simp [gradPairs_length, hitemslen]
      omega
    have hblen : ([matMul delta0 (ones y.cols 1)] ++
        (gradPairs y.cols delta0 items).map Prod.snd).length = L := by
      simp [gradPairs_length, hitemslen]
      omega
    have hgp := gradPairs_getD y.cols (spec_delta y m.weights zs acts)
      (fun i => m.weights.getD (m.weights.length - 1 - i) mat0)
      (fun i => zs.getD (zs.length - 2 - i) mat0)
      (fun i => acts.getD (acts.length - 3 - i) mat0)
      (fun i => rfl) items 0 (by simpa using hitems)
    rw [reverse_getD _ _ _ (by rw [hglen]; exact hl),
      reverse_getD _ _ _ (by rw [hblen]; exact hl), hglen, hblen]
    by_cases htop : l = L - 1
    · subst htop
      have hidx : L - 1 - (L - 1) = 0 := by omega
      rw [hidx]
      simp only [List.getD_cons_zero, List.singleton_append]
      rw [hdelta0]
      constructor
      · rfl
      · rfl
    · have hlt : l < L - 1 := by omega
      have hidx : L - 1 - l = (L - 2 - l) + 1 := by omega
      rw [hidx]
      simp only [List.singleton_append, List.getD_cons_succ]
      have hk : L - 2 - l < items.length := by rw [hitemslen]; omega
      rw [map_getD Prod.fst _ _ (mat0, mat0) _ (by rw [gradPairs_length, hitemslen]; omega),
        map_getD Prod.snd _ _ (mat0, mat0) _ (by rw [gradPairs_length, hitemslen]; omega)]
      have hd0 : delta0 = spec_delta y m.weights zs acts 0 := hdelta0
      rw [hd0, hgp (L - 2 - l) hk]
      have ha1 : acts.length - 3 - (L - 2 - l) = l := by rw [hal]; omega
      simp [Nat.zero_add, ha1]

/-- C1: `backward` computes `delta[L] = lossPrime(a[L], y) ⊙ sigmaPrime(z[L])`
and, going down, `delta[l] = (weights[l+1]ᵗ · delta[l+1]) ⊙ sigmaPrime(z[l])`
(`spec_delta ... j` is `delta[L-j]`), with
`gradBiases[l] = delta[l] · ones(N_batch, 1)` and
`gradWeights[l] = delta[l] · a[l-1]ᵗ`, and stores the gradient sequences
in layer-ascending order (0-based stored index `l` holds layer `l+1`). -/
theorem backward_spec (m : Model) (y : Mat) (zs acts : List Mat) (L : Nat)
    (hz : m.z_inputs = some zs) (ha : m.activations = some acts)
    (hwl : m.weights.length = L) (hzl : zs.length = L) (hal : acts.length = L + 1)
    (hL : 1 ≤ L) :
    spec_delta y m.weights zs acts 0 =
      hadamard (loss_prime (acts.getD L mat0) y)
        (matMap sigma_prime (zs.getD (L - 1) mat0)) ∧
    (∀ j, spec_delta y m.weights zs acts (j + 1) =
      hadamard
        (matMul (m.weights.getD (L - 1 - j) mat0).transpose
          (spec_delta y m.weights zs acts j))
        (matMap sigma_prime (zs.getD (L - 2 - j) mat0))) ∧
    ∃ gws gbs,
      backward y m = some { m with grad_weights := some gws, grad_biases := some gbs } ∧
      gws.length = L ∧ gbs.length = L ∧
      (∀ l, l < L →
        gws.getD l mat0 =
          matMul (spec_delta y m.weights zs acts (L - 1 - l)) ((acts.getD l mat0).transpose) ∧
        gbs.getD l mat0 =
          matMul (spec_delta y m.weights zs acts (L - 1 - l)) (ones y.cols 1)) := by
  refine ⟨?_, ?_, backward_out m y zs acts L hz ha hwl hzl hal hL⟩
  · simp only [spec_delta, hal, hzl, Nat.add_sub_cancel]
  · intro j
    simp only [spec_delta, hwl, hzl]

theorem backward_spec_witness :
    (1 : Nat) ≤ 1 ∧
    (backward (ones 1 1)
      { nlayers := 1, weights := [ones 1 1], biases := [ones 1 1],
        z_inputs := some [ones 1 1],
        activations := some [ones 1 1, ones 1 1] }).isSome = true := by
  refine ⟨le_refl 1, ?_⟩
  obtain ⟨-, -, gws, gbs, hsome, -⟩ := backward_spec
    { nlayers := 1, weights := [ones 1 1], biases := [ones 1 1],
      z_inputs := some [ones 1 1], activations := some [ones 1 1, ones 1 1] }
    (ones 1 1) [ones 1 1] [ones 1 1, ones 1 1] 1 rfl rfl rfl rfl rfl (le_refl 1)
  rw [hsome]
  rfl

/-! ### Parameter update -/

/-- C4: with a positive learning rate and gradients present, `update`
replaces `weights[l]` by `weights[l] - eta * gradWeights[l]` and
`biases[l]` by `biases[l] - eta * gradBiases[l]`, and afterwards all
four transient fields are absent, leaving only `nlayers`, `weights` and
`biases`. -/
theorem update_spec (eta : ℝ) (m : Model) (gws gbs zs acts : List Mat) (L : Nat)
    (heta : 0 < eta)
    (hgw : m.grad_weights = some gws) (hgb : m.grad_biases = some gbs)
    (hz : m.z_inputs = some zs) (ha : m.activations = some acts)
    (hwl : m.weights.length = L) (hbl : m.biases.length = L)
    (hgwl : gws.length = L) (hgbl : gbs.length = L) :
    ∃ m2, update eta m = some m2 ∧
      m2.weights.length = L ∧ m2.biases.length = L ∧
      (∀ l, l < L →
        m2.weights.getD l mat0 =
          matSub (m.weights.getD l mat0) (smul eta (gws.getD l mat0)) ∧
        m2.biases.getD l mat0 =
          matSub (m.biases.getD l mat0) (smul eta (gbs.getD l mat0))) ∧
      m2.z_inputs = none ∧ m2.activations = none ∧
      m2.grad_weights = none ∧ m2.grad_biases = none ∧
      m2.nlayers = m.nlayers := by
  have hrun : update eta m = some
      { nlayers := m.nlayers
      , weights := ((zip4 m.weights m.biases gws gbs).map
          (fun q => (matSub q.1 (smul eta q.2.2.1), matSub q.2.1 (smul eta q.2.2.2)))).map
            Prod.fst
      , biases := ((zip4 m.weights m.biases gws gbs).map
          (fun q => (matSub q.1 (smul eta q.2.2.1), matSub q.2.1 (smul eta q.2.2.2)))).map
            Prod.snd } := by
    simp only [update, hgw, hgb, hz, ha, Option.bind_eq_bind, Option.some_bind]
  have hzlen : (zip4 m.weights m.biases gws gbs).length = L := by
    simp [zip4, List.length_zip, hwl, hbl, hgwl, hgbl]
  refine ⟨_, hrun, by simp [hzlen], by simp [hzlen], ?_, rfl, rfl, rfl, rfl, rfl⟩
  intro l hl
  have hq : (zip4 m.weights m.biases gws gbs).getD l (mat0, mat0, mat0, mat0) =
      (m.weights.getD l mat0, m.biases.getD l mat0, gws.getD l mat0, gbs.getD l mat0) :=
    zip4_getD _ _ _ _ _ _ _ _ _ (hwl ▸ hl) (hbl ▸ hl) (hgwl ▸ hl) (hgbl ▸ hl)
  constructor
  · rw [map_getD Prod.fst _ _ (mat0, mat0) _ (by simp [hzlen]; omega),
      map_getD _ _ _ (mat0, mat0, mat0, mat0) _ (by rw [hzlen]; exact hl), hq]
  · rw [map_getD Prod.snd _ _ (mat0, mat0) _ (by simp [hzlen]; omega),
      map_getD _ _ _ (mat0, mat0, mat0, mat0) _ (by rw [hzlen]; exact hl), hq]

theorem update_spec_witness :
    (0 : ℝ) < 1 ∧
    ∃ m2, update 1
      { nlayers := 1, weights := [ones 1 1], biases := [ones 1 1],
        z_inputs := some [], activations := some [],
        grad_weights := some [ones 1 1], grad_biases := some [ones 1 1] } = some m2 ∧
      m2.grad_weights = none := by
  refine ⟨one_pos, ?_⟩
  obtain ⟨m2, hrun, -, -, -, -, -, hgw, -⟩ := update_spec 1
    { nlayers := 1, weights := [ones 1 1], biases := [ones 1 1],
      z_inputs := some [], activations := some [],
      grad_weights := some [ones 1 1], grad_biases := some [ones 1 1] }
    [ones 1 1] [ones 1 1] [] [] 1 one_pos rfl rfl rfl rfl rfl rfl rfl rfl
  exact ⟨m2, hrun, hgw⟩

/-! ### Batched gradients decompose per column -/

theorem forwardLoop_cola (j : Nat) (wb : List (Mat × Mat)) :
    ∀ a : Mat, (∀ p ∈ wb, (p.2).cols = 1) →
    forwardLoop (cola a j) wb =
      (cola (forwardLoop a wb).1 j,
       (forwardLoop a wb).2.1.map (fun M => cola M j),
       (forwardLoop a wb).2.2.map (fun M => cola M j)) := by
  induction wb with
  | nil => intro a hb; rfl
  | cons p rest ih =>
    intro a hb
    obtain ⟨W, b⟩ := p
    have hb1 : b.cols = 1 := hb (W, b) (by simp)
    have hz : npAdd (matMul W (cola a j)) b = cola (npAdd (matMul W a) b) j := by
      rw [cola_matMul, cola_npAdd _ _ _ hb1]
    simp only [forwardLoop]
    rw [hz, cola_matMap]
    rw [ih (matMap sigma (npAdd (matMul W a) b))
      (fun q hq => hb q (List.mem_cons_of_mem _ hq))]
    simp only [List.map_cons]

theorem spec_delta_cols (y : Mat) (ws zs acts : List Mat) :
    ∀ k, (spec_delta y ws zs acts k).cols = (acts.getD (acts.length - 1) mat0).cols := by
  intro k
  induction k with
  | zero => rfl
  | succ n ih => exact ih

theorem spec_delta_cola (y : Mat) (ws zs acts : List Mat) (L : Nat) (j : Nat)
    (hzl : zs.length = L) (hal : acts.length = L + 1) :
    ∀ k, k < L →
    spec_delta (cola y j) ws (zs.map (fun M => cola M j)) (acts.map (fun M => cola M j)) k =
      cola (spec_delta y ws zs acts k) j := by
  intro k
  induction k with
  | zero =>
    intro hk
    simp only [spec_delta, List.length_map, loss_prime]
    rw [map_getD _ _ _ mat0 _ (by rw [hal]; omega),
      map_getD _ _ _ mat0 _ (by rw [hzl]; omega),
      cola_matSub, cola_matMap, cola_hadamard]
  | succ n ih =>
    intro hk
    have hn : n < L := by omega
    simp only [spec_delta, List.length_map]
    rw [map_getD _ _ _ mat0 _ (by rw [hzl]; omega), ih hn, cola_matMul, cola_matMap,
      cola_hadamard]

/-- C5: the gradients `backward` stores are summed over the batch: for
each layer, the bias gradient entry is the row-sum of `delta` over the
`N_batch` columns (a total, not an average), the weight gradient entry
is the corresponding sum of per-example outer products, and both equal
the sum, over the batch columns `j`, of the gradients obtained by
running forward+backward on column `j` alone with the same parameters. -/
theorem batch_gradient_sum (m : Model) (x y : Mat) (L : Nat)
    (hwl : m.weights.length = L) (hbl : m.biases.length = L)
    (hb1 : ∀ b ∈ m.biases, b.cols = 1) (hL : 1 ≤ L) (hxy : x.cols = y.cols) :
    (stepGrads x y m).1.length = L ∧
    (stepGrads x y m).2.length = L ∧
    (∀ l, l < L → ∀ i,
      ((stepGrads x y m).2.getD l mat0).entry i 0 =
        ∑ j ∈ Finset.range y.cols,
          (spec_delta y m.weights ((forward x m).2.z_inputs.getD [])
            ((forward x m).2.activations.getD []) (L - 1 - l)).entry i j) ∧
    (∀ l, l < L → ∀ i k,
      ((stepGrads x y m).1.getD l mat0).entry i k =
        ∑ j ∈ Finset.range y.cols,
          (spec_delta y m.weights ((forward x m).2.z_inputs.getD [])
            ((forward x m).2.activations.getD []) (L - 1 - l)).entry i j *
          ((((forward x m).2.activations.getD []).getD l mat0).entry k j)) ∧
    (∀ l, l < L → ∀ i k,
      ((stepGrads x y m).1.getD l mat0).entry i k =
        ∑ j ∈ Finset.range y.cols,
          ((stepGrads (cola x j) (cola y j) m).1.getD l mat0).entry i k) ∧
    (∀ l, l < L → ∀ i,
      ((stepGrads x y m).2.getD l mat0).entry i 0 =
        ∑ j ∈ Finset.range y.cols,
          ((stepGrads (cola x j) (cola y j) m).2.getD l mat0).entry i 0) := by
  have hwbl : (m.weights.zip m.biases).length = L := by
    simp [List.length_zip, hwl, hbl]
  have hzl1 : (forwardLoop x (m.weights.zip m.biases)).2.2.length = L := by
    rw [forwardLoop_zs_length, hwbl]
  have hal1 : (forwardLoop x (m.weights.zip m.biases)).2.1.length = L + 1 := by
    rw [forwardLoop_acts_length, hwbl]
  have hz1 : (forward x m).2.z_inputs =
      some (forwardLoop x (m.weights.zip m.biases)).2.2 := rfl
  have ha1 : (forward x m).2.activations =
      some (forwardLoop x (m.weights.zip m.biases)).2.1 := rfl
  obtain ⟨gws, gbs, hsome, hgwslen, hgbslen, hchar⟩ :=
    backward_out (forward x m).2 y
      (forwardLoop x (m.weights.zip m.biases)).2.2
      (forwardLoop x (m.weights.zip m.biases)).2.1 L hz1 ha1 hwl hzl1 hal1 hL
  simp only [forward] at hchar
  have hstep : stepGrads x y m = (gws, gbs) := by
    simp only [stepGrads, hsome]
    rfl
  have hcols : ∀ kk, (spec_delta y m.weights
      (forwardLoop x (m.weights.zip m.biases)).2.2
      (forwardLoop x (m.weights.zip m.biases)).2.1 kk).cols = y.cols := by
    intro kk
    have h1 := forwardLoop_acts_cols (m.weights.zip m.biases) x L (by rw [hwbl])
    rw [spec_delta_cols, hal1, Nat.add_sub_cancel, h1, hxy]
  have hgbentry : ∀ l, l < L → ∀ i,
      (gbs.getD l mat0).entry i 0 =
        ∑ j ∈ Finset.range y.cols,
          (spec_delta y m.weights (forwardLoop x (m.weights.zip m.biases)).2.2
            (forwardLoop x (m.weights.zip m.biases)).2.1 (L - 1 - l)).entry i j := by
    intro l hl i
    rw [(hchar l hl).2]
    simp only [matMul, ones]
    rw [hcols]
    simp
  have hgwentry : ∀ l, l < L → ∀ i k,
      (gws.getD l mat0).entry i k =
        ∑ j ∈ Finset.range y.cols,
          (spec_delta y m.weights (forwardLoop x (m.weights.zip m.biases)).2.2
            (forwardLoop x (m.weights.zip m.biases)).2.1 (L - 1 - l)).entry i j *
          (((forwardLoop x (m.weights.zip m.biases)).2.1.getD l mat0).entry k j) := by
    intro l hl i k
    rw [(hchar l hl).1]
    simp only [matMul, Mat.transpose]
    rw [hcols]
  have hbwb : ∀ p ∈ m.weights.zip m.biases, (p.2).cols = 1 := by
    intro p hp
    exact hb1 p.2 (List.of_mem_zip hp).2
  -- per-column gradient entries
  have hcol : ∀ j l, l < L →
      (∀ i k, ((stepGrads (cola x j) (cola y j) m).1.getD l mat0).entry i k =
        (spec_delta y m.weights (forwardLoop x (m.weights.zip m.biases)).2.2
          (forwardLoop x (m.weights.zip m.biases)).2.1 (L - 1 - l)).entry i j *
        (((forwardLoop x (m.weights.zip m.biases)).2.1.getD l mat0).entry k j)) ∧
      (∀ i, ((stepGrads (cola x j) (cola y j) m).2.getD l mat0).entry i 0 =
        (spec_delta y m.weights (forwardLoop x (m.weights.zip m.biases)).2.2
          (forwardLoop x (m.weights.zip m.biases)).2.1 (L - 1 - l)).entry i j) := by
    intro j l hl
    have hfc := forwardLoop_cola j (m.weights.zip m.biases) x hbwb
    have hz2 : (forward (cola x j) m).2.z_inputs =
        some ((forwardLoop x (m.weights.zip m.biases)).2.2.map (fun M => cola M j)) := by
      simp only [forward]
      rw [hfc]
    have ha2 : (forward (cola x j) m).2.activations =
        some ((forwardLoop x (m.weights.zip m.biases)).2.1.map (fun M => cola M j)) := by
      simp only [forward]
      rw [hfc]
    obtain ⟨gwsj, gbsj, hsomej, -, -, hcharj⟩ :=
      backward_out (forward (cola x j) m).2 (cola y j)
        ((forwardLoop x (m.weights.zip m.biases)).2.2.map (fun M => cola M j))
        ((forwardLoop x (m.weights.zip m.biases)).2.1.map (fun M => cola M j)) L hz2 ha2
        hwl (by rw [List.length_map, hzl1]) (by rw [List.length_map, hal1]) hL
    simp only [forward] at hcharj
    have hstepj : stepGrads (cola x j) (cola y j) m = (gwsj, gbsj) := by
      simp only [stepGrads, hsomej]
      rfl
    have hdelta : ((stepGrads (cola x j) (cola y j) m).1.getD l mat0) =
        matMul (cola (spec_delta y m.weights (forwardLoop x (m.weights.zip m.biases)).2.2
          (forwardLoop x (m.weights.zip m.biases)).2.1 (L - 1 - l)) j)
          ((cola ((forwardLoop x (m.weights.zip m.biases)).2.1.getD l mat0) j).transpose) := by
      rw [hstepj]
      show gwsj.getD l mat0 = _
      rw [(hcharj l hl).1,
        spec_delta_cola y m.weights _ _ L j hzl1 hal1 (L - 1 - l) (by omega),
        map_getD _ _ _ mat0 _ (by rw [hal1]; omega)]
    constructor
    · intro i k
      rw [hdelta]
      simp [matMul, cola, Mat.transpose, Finset.sum_range_one]
    · intro i
      have hgb : ((stepGrads (cola x j) (cola y j) m).2.getD l mat0) =
          matMul (cola (spec_delta y m.weights (forwardLoop x (m.weights.zip m.biases)).2.2
            (forwardLoop x (m.weights.zip m.biases)).2.1 (L - 1 - l)) j)
            (ones (cola y j).cols 1) := by
        rw [hstepj]
        show gbsj.getD l mat0 = _
        rw [(hcharj l hl).2,
          spec_delta_cola y m.weights _ _ L j hzl1 hal1 (L - 1 - l) (by omega)]
      rw [hgb]
      simp [matMul, cola, ones, Finset.sum_range_one]
  refine ⟨by rw [hstep]; exact hgwslen, by rw [hstep]; exact hgbslen, ?_, ?_, ?_, ?_⟩
  · intro l hl i
    rw [hstep]
    exact hgbentry l hl i
  · intro l hl i k
    rw [hstep]
    exact hgwentry l hl i k
  · intro l hl i k
    rw [hstep]
    have hfull := hgwentry l hl i k
    rw [hfull]
    refine Finset.sum_congr rfl ?_
    intro j hj
    exact ((hcol j l hl).1 i k).symm
  · intro l hl i
    rw [hstep]
    have hfull := hgbentry l hl i
    rw [hfull]
    refine Finset.sum_congr rfl ?_
    intro j hj
    exact ((hcol j l hl).2 i).symm

theorem batch_gradient_sum_witness :
    (1 : Nat) ≤ 1 ∧
    (stepGrads (ones 1 1) (ones 1 1)
      { nlayers := 1, weights := [ones 1 1], biases := [ones 1 1] }).1.length = 1 :=
  ⟨le_refl 1,
    (batch_gradient_sum { nlayers := 1, weights := [ones 1 1], biases := [ones 1 1] }
      (ones 1 1) (ones 1 1) 1 rfl rfl
      (by intro b hb; simp only [List.mem_singleton] at hb; subst hb; rfl)
      (le_refl 1) rfl).1⟩

/-! ### Loss -/

/-- C7: for equal-shaped `yhat` and `y`, `loss` is half the total (not
averaged) sum of squared differences over all entries, so
`loss y y = 0`; `loss_prime yhat y` is the elementwise difference
`yhat - y`, and it is the gradient of `loss` with respect to `yhat`:
perturbing the single entry `(i, j)` of `yhat` gives a function of the
perturbation whose derivative at the original value is
`(loss_prime yhat y).entry i j`. -/
theorem loss_correct (yhat y : Mat) (hr : yhat.rows = y.rows) (hc : yhat.cols = y.cols) :
    loss yhat y = 0.5 * ∑ i ∈ Finset.range yhat.rows, ∑ j ∈ Finset.range yhat.cols,
      (yhat.entry i j - y.entry i j) ^ 2 ∧
    loss y y = 0 ∧
    (∀ i j, (loss_prime yhat y).entry i j = yhat.entry i j - y.entry i j) ∧
    (∀ i j, i < yhat.rows → j < yhat.cols →
      HasDerivAt
        (fun t => loss
          ⟨yhat.rows, yhat.cols, fun a b => if a = i ∧ b = j then t else yhat.entry a b⟩ y)
        ((loss_prime yhat y).entry i j) (yhat.entry i j)) := by
  refine ⟨rfl, by simp [loss], fun i j => rfl, ?_⟩
  intro i j hi hj
  have hterm : ∀ a ∈ Finset.range yhat.rows, ∀ b ∈ Finset.range yhat.cols,
      HasDerivAt
        (fun t => ((if a = i ∧ b = j then t else yhat.entry a b) - y.entry a b) ^ 2)
        (if a = i ∧ b = j then 2 * (yhat.entry i j - y.entry i j) else 0)
        (yhat.entry i j) := by
    intro a _ b _
    by_cases hab : a = i ∧ b = j
    · simp only [if_pos hab]
      obtain ⟨ha, hb⟩ := hab
      subst ha
      subst hb
      have h := ((hasDerivAt_id (yhat.entry a b)).sub_const (y.entry a b)).pow 2
      convert h using 1
      simp only [id_eq]
      push_cast
      ring
    · simp only [if_neg hab]
      exact hasDerivAt_const _ _
  have hrow : ∀ a ∈ Finset.range yhat.rows,
      HasDerivAt
        (fun t => ∑ b ∈ Finset.range yhat.cols,
          ((if a = i ∧ b = j then t else yhat.entry a b) - y.entry a b) ^ 2)
        (∑ b ∈ Finset.range yhat.cols,
          if a = i ∧ b = j then 2 * (yhat.entry i j - y.entry i j) else 0)
        (yhat.entry i j) :=
    fun a ha => HasDerivAt.sum (fun b hb => hterm a ha b hb)
  have hsum := HasDerivAt.sum hrow
  have hfull := HasDerivAt.const_mul (0.5 : ℝ) hsum
  have hinner : ∀ a, (∑ b ∈ Finset.range yhat.cols,
      if a = i ∧ b = j then 2 * (yhat.entry i j - y.entry i j) else 0) =
      if a = i then 2 * (yhat.entry i j - y.entry i j) else 0 := by
    intro a
    by_cases ha : a = i
    · subst ha
      simp only [true_and]
      rw [Finset.sum_ite_eq' (Finset.range yhat.cols) j
        (fun _ => 2 * (yhat.entry a j - y.entry a j))]
      simp [Finset.mem_range.mpr hj]
    · simp [ha]
  have houter : (∑ a ∈ Finset.range yhat.rows, ∑ b ∈ Finset.range yhat.cols,
      if a = i ∧ b = j then 2 * (yhat.entry i j - y.entry i j) else 0) =
      2 * (yhat.entry i j - y.entry i j) := by
    rw [Finset.sum_congr rfl (fun a _ => hinner a),
      Finset.sum_ite_eq' (Finset.range yhat.rows) i
        (fun _ => 2 * (yhat.entry i j - y.entry i j))]
    simp [Finset.mem_range.mpr hi]
  show HasDerivAt
    (fun t => 0.5 * ∑ a ∈ Finset.range yhat.rows, ∑ b ∈ Finset.range yhat.cols,
      ((if a = i ∧ b = j then t else yhat.entry a b) - y.entry a b) ^ 2)
    (yhat.entry i j - y.entry i j) (yhat.entry i j)
  have hval : yhat.entry i j - y.entry i j =
      0.5 * ∑ a ∈ Finset.range yhat.rows, ∑ b ∈ Finset.range yhat.cols,
        (if a = i ∧ b = j then 2 * (yhat.entry i j - y.entry i j) else 0) := by
    rw [houter]
    ring
  rw [hval]
  exact hfull

theorem loss_correct_witness :
    (ones 1 1).rows = (ones 1 1).rows ∧ loss (ones 1 1) (ones 1 1) = 0 :=
  ⟨rfl, (loss_correct (ones 1 1) (ones 1 1) rfl rfl).2.1⟩

end DLS
